import Mathlib

/-!
Verification of the linear-operator framework (src/num/linop.c) and the
gradient operator (src/linops/grad.c).

The development is a shallow embedding: buffers of complex floats are
modelled by an abstract type carrying an additive structure where the code
adds or clears buffers, multidimensional shapes by lists of integers
(C long), bitmasks by natural numbers, and nullable pointers by Option.
Array-math primitives (num/multind.c, num/flpmath.c), libc ffs, and the
generic operator layer (num/ops.c) are external collaborators that are not
under src; they are modelled from the spec and marked as such.
Fatal assertions are modelled by returning none.
-/

set_option autoImplicit false

/- ===================== bit utilities ===================== -/

/-- Modelled from the spec: popcount — number of set bits of a mask
(the function bitcount, from misc, is not under src). -/
def bitcount (x : Nat) : Nat :=
  if h : x = 0 then 0 else x % 2 + bitcount (x / 2)
termination_by x
decreasing_by exact Nat.div_lt_self (Nat.pos_of_ne_zero h) Nat.one_lt_two

/-- Number of trailing zero bits of a nonzero number; helper for the model
of ffs below. -/
def ctz (x : Nat) : Nat :=
  if h : x = 0 then 0
  else if x % 2 = 1 then 0 else ctz (x / 2) + 1
termination_by x
decreasing_by exact Nat.div_lt_self (Nat.pos_of_ne_zero h) Nat.one_lt_two

/-- Modelled from the spec: lowest-set-bit — C library ffs, which returns
one plus the index of the lowest set bit, and zero on a zero argument
(ffs, from strings.h, is not under src). -/
def ffs (x : Nat) : Nat := if x = 0 then 0 else ctz x + 1

/-- Modelled from the spec: the bit-scan-and-clear step clears the bit at
position pos (the macro MD_CLEAR, from num/multind.h, is not under src). -/
def MD_CLEAR (x pos : Nat) : Nat :=
  if x / 2 ^ pos % 2 = 1 then x - 2 ^ pos else x

/-- The value of the C expression `unsigned int lsb = ffs(flags2) - 1`:
the subtraction is int arithmetic converted to a 32-bit unsigned value,
so a zero mask yields 2^32 - 1 rather than an index. -/
def lsbOf (f : Nat) : Nat := (ffs f + (2 ^ 32 - 1)) % 2 ^ 32

/-- Helper for `selectedDims`: positions of the set bits of x, offset by i,
in ascending order. -/
def selGo (x i : Nat) : List Nat :=
  if h : x = 0 then []
  else if x % 2 = 1 then i :: selGo (x / 2) (i + 1) else selGo (x / 2) (i + 1)
termination_by x
decreasing_by
  all_goals exact Nat.div_lt_self (Nat.pos_of_ne_zero h) Nat.one_lt_two

/-- The spec-side notion of the ordered list of selected dimensions:
indices of the set bits of the mask, in ascending order. -/
def selectedDims (flags : Nat) : List Nat := selGo flags 0

/-- The bit-scan-and-clear loop shared by grad_op and grad_adjoint
(src/linops/grad.c lines 36-42 and 61-69): run n iterations, at each
computing `lsb = ffs(flags2) - 1` and `flags2 = MD_CLEAR(flags2, lsb)`.
Returns the list of lsb values in iteration order, the final value of
flags2 (checked by `assert(0 == flags2)`), and whether some iteration
entered the ffs lookup with a zero mask. -/
def scanBits : Nat → Nat → List Nat × Nat × Bool
  | 0, f => ([], f, false)
  | n + 1, f =>
    let lsb := lsbOf f
    let r := scanBits n (MD_CLEAR f lsb)
    (lsb :: r.1, r.2.1, decide (f = 0) || r.2.2)

/- ===================== gradient operator (src/linops/grad.c) ===================== -/

/-- Embedding of grad_op (src/linops/grad.c lines 28-45) over an abstract
buffer type α. The external primitive md_zfdiff (num/flpmath.c, not under
src) is the parameter `fdiff`; since the shape arguments `(D - 1, dims)`
passed to it are fixed through one call, it takes only the differenced
dimension. The output buffer is returned as the list of its trailing-axis
slices: iteration i writes `out + i * md_calc_size(D - 1, dims)`, the slice
at position i. A failed assert is modelled as none. -/
def grad_op {α : Type} (fdiff : Nat → α → α) (D : Nat) (dims : List Int)
    (flags : Nat) (inp : α) : Option (List α) :=
  let N := bitcount flags
  -- assert(N == dims[D - 1])
  if dims.getD (D - 1) 0 ≠ (N : Int) then none
  else
    let s := scanBits N flags
    -- assert(0 == flags2)
    if s.2.1 ≠ 0 then none
    else some (s.1.map (fun b => fdiff b inp))

/-- Embedding of grad_adjoint (src/linops/grad.c lines 48-74). The external
primitive md_zfdiff_backwards is the parameter `bdiff`; the input buffer is
accessed through its trailing-axis slices `inp i`, matching
`in + i * md_calc_size(D - 1, dims)`. The arguments out0 and tmp0 are the
prior contents of the caller-supplied output buffer and of the freshly
allocated scratch buffer; both are overwritten by md_clear before the
accumulation loop, and each iteration fully rewrites the scratch with
`md_zfdiff_backwards` before `md_zadd` adds it into the accumulator. -/
def grad_adjoint {α : Type} [AddCommMonoid α] (bdiff : Nat → α → α) (D : Nat)
    (dims : List Int) (flags : Nat) (inp : Nat → α) (out0 tmp0 : α) : Option α :=
  let N := bitcount flags
  -- assert(N == dims[D - 1])
  if dims.getD (D - 1) 0 ≠ (N : Int) then none
  else
    let out1 : α := 0   -- md_clear(D - 1, dims, out, CFL_SIZE): out0 is discarded
    let s := scanBits N flags
    -- assert(0 == flags2)
    if s.2.1 ≠ 0 then none
    else some (s.1.enum.foldl (fun acc p => acc + bdiff p.2 (inp p.1)) out1)

/-- Embedding of grad_op_normal (src/linops/grad.c lines 121-132): allocate
a codomain-shaped temporary, run grad_op into it, then grad_adjoint from it
into the destination. The arguments dst0 and scr0 are the prior contents of
the destination buffer and of the scratch buffer grad_adjoint allocates;
tmp0 is the uninitialized content of the temporary, never read because
grad_op writes every slice that grad_adjoint later reads. -/
def grad_op_normal {α : Type} [AddCommMonoid α] (fdiff bdiff : Nat → α → α)
    (D : Nat) (dims : List Int) (flags : Nat) (src : α) (dst0 scr0 : α) :
    Option α :=
  (grad_op fdiff D dims flags src).bind (fun tmp =>
    grad_adjoint bdiff D dims flags (fun i => tmp.getD i 0) dst0 scr0)

/- ===================== shared payload ring (src/num/linop.c) ===================== -/

/-- State of the shared payload ring built by linop_create2
(src/num/linop.c lines 89-135). Nodes are the four shared_data_s blocks;
live is the set of nodes not yet freed; next and prev are the circular
double-linked-list pointers; rc is the reference count the operator layer
keeps for the operator owning each node (one per construction plus one per
clone); delCount counts invocations of the user deleter on the state. -/
structure RingState where
  live : Finset (Fin 4)
  next : Fin 4 → Fin 4
  prev : Fin 4 → Fin 4
  rc : Fin 4 → Nat
  delCount : Nat

/-- Embedding of shared_unlink (src/num/linop.c lines 42-46):
`data->next->prev = data->prev; data->prev->next = data->next`. -/
def shared_unlink (d : Fin 4) (s : RingState) : RingState :=
  { s with
    next := Function.update s.next (s.prev d) (s.next d)
    prev := Function.update s.prev (s.next d) (s.prev d) }

/-- Splice a node out of the ring and free it: shared_unlink followed by
free, as in shared_del and in the construction-time removal of unused
optional transforms (src/num/linop.c lines 121-122 and 132-133). -/
def dropNode (d : Fin 4) (s : RingState) : RingState :=
  { shared_unlink d s with live := s.live.erase d }

/-- Embedding of shared_del (src/num/linop.c lines 48-63): if the node is
its own successor it is the sole remaining ring member, so the user deleter
runs on the state; otherwise the node is spliced out; either way the node
is freed. -/
def shared_del (d : Fin 4) (s : RingState) : RingState :=
  if s.next d = d then
    { s with delCount := s.delCount + 1, live := s.live.erase d }
  else
    dropNode d s

/-- Modelled from the spec: the generic operator layer (num/ops.c, not
under src) reference-counts each operator handle; operator_free decrements
and invokes the registered deleter, here shared_del, only when the count
reaches zero. -/
def releaseHandle (d : Fin 4) (s : RingState) : RingState :=
  if 1 < s.rc d then { s with rc := Function.update s.rc d (s.rc d - 1) }
  else shared_del d s

/-- The ring as laid out by linop_create2 (src/num/linop.c lines 94-102):
four nodes with `next = shared_data[(i + 1) % 4]` and
`prev = shared_data[(i + 3) % 4]`, deleter not yet invoked. Every node
initially carries k + 1 operator references: one from construction and one
for each of k clones, since linop_clone takes operator_ref on every
materialized handle. -/
def initRing (k : Nat) : RingState :=
  { live := Finset.univ
    next := fun i => i + 1
    prev := fun i => i - 1
    rc := fun _ => k + 1
    delCount := 0 }

/-- Ring effect of linop_create2 (src/num/linop.c lines 89-135) followed by
k clones: build the four-ring, then, when the normal transform (node 2) or
the pseudo-inverse (node 3) is absent, splice that node out and free it
immediately without invoking the deleter. -/
def constructRing (hasNormal hasPinv : Bool) (k : Nat) : RingState :=
  let s0 := initRing k
  let s1 := if hasNormal then s0 else dropNode 2 s0
  if hasPinv then s1 else dropNode 3 s1

/-- Run a sequence of handle releases in order. -/
def runReleases (s : RingState) : List (Fin 4) → RingState
  | [] => s
  | d :: ds => runReleases (releaseHandle d s) ds

/-- The ring invariant: next and prev map live nodes to live nodes and are
mutually inverse on them, and iterating next from any live node reaches
every live node. -/
def RingInv (s : RingState) : Prop :=
  (∀ d ∈ s.live, s.next d ∈ s.live ∧ s.prev d ∈ s.live ∧
     s.prev (s.next d) = d ∧ s.next (s.prev d) = d) ∧
  (∀ d ∈ s.live, ∀ e ∈ s.live, ∃ k, s.next^[k] d = e)

/- ===================== linear operator (src/num/linop.c) ===================== -/

/-- Dimensions and strides descriptor (struct iovec_s, num/ops.c interface;
consumed read-only here). -/
structure iovec_s where
  dims : List Int
  strs : List Int
deriving DecidableEq

/-- Modelled from the spec: a handle of the generic composable-operator
collaborator (num/ops.c, not under src) bundles the declared codomain and
domain descriptors with the transform it applies; the shared_data state and
deleter are tracked separately by the ring model. -/
structure operator_s (V : Type) where
  codomain : iovec_s
  domain : iovec_s
  apply : V → V

/-- Modelled from the spec: a parametrized operator handle, whose transform
additionally takes the scalar regularization parameter. -/
structure operator_p_s (V P : Type) where
  codomain : iovec_s
  domain : iovec_s
  apply : P → V → V

/-- Embedding of struct linop_s: forward and adjoint handles always
present, normal and pseudo-inverse handles nullable. -/
structure linop_s (V P : Type) where
  forward : operator_s V
  adjoint : operator_s V
  normal : Option (operator_s V)
  pinverse : Option (operator_p_s V P)

/-- Modelled from the spec: create(domain, codomain, state, apply-fn,
deleter) of the operator collaborator (operator_create2, num/ops.c, not
under src); records output dims and strides, input dims and strides, and
the transform. -/
def operator_create2 {V : Type} (odims ostrs idims istrs : List Int)
    (apply : V → V) : operator_s V :=
  { codomain := ⟨odims, ostrs⟩, domain := ⟨idims, istrs⟩, apply := apply }

/-- Modelled from the spec: the parametrized variant of operator creation
(operator_p_create2, num/ops.c, not under src). -/
def operator_p_create2 {V P : Type} (odims ostrs idims istrs : List Int)
    (apply : P → V → V) : operator_p_s V P :=
  { codomain := ⟨odims, ostrs⟩, domain := ⟨idims, istrs⟩, apply := apply }

/-- Modelled from the spec: apply(handle, dst, src) of the operator
collaborator (operator_apply_unchecked, num/ops.c, not under src). -/
def operator_apply_unchecked {V : Type} (op : operator_s V) (src : V) : V :=
  op.apply src

/-- Modelled from the spec: parametrized apply of the operator collaborator
(operator_p_apply_unchecked, num/ops.c, not under src). The argument is a
nullable handle as in C; a null handle is dereferenced on entry, which
faults and produces no result, modelled as none. -/
def operator_p_apply_unchecked {V P : Type} (op : Option (operator_p_s V P))
    (lambda : P) (src : V) : Option V :=
  op.map (fun o => o.apply lambda src)

/-- Modelled from the spec: compose(inner, outer) of the operator
collaborator (operator_chain, num/ops.c, not under src): applies the first
operator, then the second; its domain is the inner domain and its codomain
the outer codomain. -/
def operator_chain {V : Type} (a b : operator_s V) : operator_s V :=
  { codomain := b.codomain, domain := a.domain,
    apply := fun x => b.apply (a.apply x) }

/-- Element size of a complex float. -/
def CFL_SIZE : Int := 8

/-- Modelled from the spec: contiguous-strides — default row-major
contiguous strides derived from a shape and an element size
(md_calc_strides, num/multind.c, not under src); the first dimension
varies fastest. -/
def md_calc_strides : List Int → Int → List Int
  | [], _ => []
  | d :: ds, sz => sz :: md_calc_strides ds (sz * d)

/-- Embedding of linop_create2 (src/num/linop.c lines 83-138): builds the
forward handle over domain to codomain, the adjoint over codomain to
domain, the normal (when provided) over domain to domain, and the
pseudo-inverse (when provided) over codomain to domain; absent optional
transforms leave a null field. The asserts that forward and adjoint are
non-null are modelled by returning none; the shared payload ring effect is
modelled by constructRing. The transform callbacks close over the user
state, so they appear directly as functions on buffers. -/
def linop_create2 {V P : Type} (odims ostrs idims istrs : List Int)
    (forward adjoint normal : Option (V → V)) (pinverse : Option (P → V → V)) :
    Option (linop_s V P) :=
  match forward, adjoint with
  | some fwd, some adj =>
    some
      { forward := operator_create2 odims ostrs idims istrs fwd
        adjoint := operator_create2 idims istrs odims ostrs adj
        normal := normal.map (fun nrm => operator_create2 idims istrs idims istrs nrm)
        pinverse := pinverse.map (fun pinv => operator_p_create2 idims istrs odims ostrs pinv) }
  | _, _ => none  -- assert((NULL != forward)); assert((NULL != adjoint))

/-- Embedding of linop_create (src/num/linop.c lines 154-163): derive
contiguous strides for both shapes and call linop_create2. The declaration
grad_init calls (linops/linop.h, not under src) passes the codomain and
domain shapes with separate ranks; in the list embedding each shape
carries its own length, so a single definition covers both. -/
def linop_create {V P : Type} (odims idims : List Int)
    (forward adjoint normal : Option (V → V)) (pinverse : Option (P → V → V)) :
    Option (linop_s V P) :=
  linop_create2 odims (md_calc_strides odims CFL_SIZE)
    idims (md_calc_strides idims CFL_SIZE) forward adjoint normal pinverse

/-- Embedding of linop_domain (src/num/linop.c lines 312-315): the domain
descriptor of the forward handle. -/
def linop_domain {V P : Type} (op : linop_s V P) : iovec_s :=
  op.forward.domain

/-- Embedding of linop_codomain (src/num/linop.c lines 323-326): the
codomain descriptor of the forward handle. -/
def linop_codomain {V P : Type} (op : linop_s V P) : iovec_s :=
  op.forward.codomain

/-- Embedding of linop_forward_unchecked (src/num/linop.c lines 257-260). -/
def linop_forward_unchecked {V P : Type} (op : linop_s V P) (src : V) : V :=
  operator_apply_unchecked op.forward src

/-- Embedding of linop_adjoint_unchecked (src/num/linop.c lines 271-275);
the adjoint handle is always materialized, so `assert(op->adjoint)`
passes. -/
def linop_adjoint_unchecked {V P : Type} (op : linop_s V P) (src : V) : V :=
  operator_apply_unchecked op.adjoint src

/-- Embedding of linop_normal_unchecked (src/num/linop.c lines 286-290):
`assert(op->normal)` fails fatally on a null normal handle, modelled as
none; otherwise the normal transform is applied. -/
def linop_normal_unchecked {V P : Type} (op : linop_s V P) (src : V) :
    Option V :=
  match op.normal with
  | some nop => some (operator_apply_unchecked nop src)
  | none => none

/-- Embedding of linop_pinverse_unchecked (src/num/linop.c lines 301-304):
no assert guards the pseudo-inverse handle; the possibly-null handle is
passed straight to the operator layer. -/
def linop_pinverse_unchecked {V P : Type} (op : linop_s V P) (lambda : P)
    (src : V) : Option V :=
  operator_p_apply_unchecked op.pinverse lambda src

/-- Embedding of linop_forward (src/num/linop.c lines 203-208), the checked
forward apply: the declared codomain dims ddims, domain dims sdims and rank
N are discarded (`UNUSED(ddims); UNUSED(sdims); UNUSED(N)`) and the
unchecked apply runs unconditionally. The return type shows that no error
is ever reported to the caller. -/
def linop_forward {V P : Type} (op : linop_s V P) (N : Nat)
    (ddims sdims : List Int) (src : V) : V :=
  linop_forward_unchecked op src

/-- Embedding of linop_adjoint (src/num/linop.c lines 222-227), the checked
adjoint apply: the declared dims are discarded and the unchecked apply runs
unconditionally. -/
def linop_adjoint {V P : Type} (op : linop_s V P) (N : Nat)
    (ddims sdims : List Int) (src : V) : V :=
  linop_adjoint_unchecked op src

/-- Embedding of linop_normal (src/num/linop.c lines 241-246), the checked
normal apply: the declared dims are discarded and the unchecked apply runs
unconditionally. -/
def linop_normal {V P : Type} (op : linop_s V P) (N : Nat)
    (ddims sdims : List Int) (src : V) : Option V :=
  linop_normal_unchecked op src

/-- Embedding of linop_chain (src/num/linop.c lines 335-356): the forward
of the chain applies a then b, the adjoint applies the adjoint of b then
the adjoint of a; the normal falls back to forward-then-adjoint of the
chain when b has no normal handle, and otherwise chains the forward of a,
the normal of b, and the adjoint of a (the temporary handle `top` is
inlined; its operator_free only drops a reference); the pseudo-inverse is
always null. -/
def linop_chain {V P : Type} (a b : linop_s V P) : linop_s V P :=
  let fwd := operator_chain a.forward b.forward
  let adj := operator_chain b.adjoint a.adjoint
  { forward := fwd
    adjoint := adj
    normal := some
      (match b.normal with
       | none => operator_chain fwd adj
       | some bn => operator_chain a.forward (operator_chain bn a.adjoint))
    pinverse := none }

/-- Embedding of grad_init (src/linops/grad.c lines 142-154): the stored
dims are the domain shape with the popcount of the selection mask appended
as the extent of one extra trailing dimension, and linop_create is called
with that list as codomain, the caller shape as domain, all three of
forward, adjoint and normal bound, and no pseudo-inverse. The three
transform closures grad_op_apply, grad_op_adjoint and grad_op_normal are
abstracted as the buffer functions fwd, adj and nrm; their behavior is
verified separately through grad_op, grad_adjoint and grad_op_normal. -/
def grad_init {V P : Type} (fwd adj nrm : V → V) (dims : List Int)
    (flags : Nat) : Option (linop_s V P) :=
  let dims2 := dims ++ [(bitcount flags : Int)]
  linop_create dims2 dims (some fwd) (some adj) (some nrm) none

/-- Sample operator over integer buffers with neither a normal nor a
pseudo-inverse handle; used to instantiate generic theorems on concrete
inputs. -/
def sampleOpA : linop_s Int Int :=
  { forward := operator_create2 [2] [8] [2] [8] (fun v => v * 2)
    adjoint := operator_create2 [2] [8] [2] [8] (fun v => v * 2)
    normal := none
    pinverse := none }

/-- Sample operator over integer buffers carrying a normal handle
consistent with its forward and adjoint (three times three is nine); used
to instantiate generic theorems on concrete inputs. -/
def sampleOpB : linop_s Int Int :=
  { forward := operator_create2 [2] [8] [2] [8] (fun v => v * 3)
    adjoint := operator_create2 [2] [8] [2] [8] (fun v => v * 3)
    normal := some (operator_create2 [2] [8] [2] [8] (fun v => v * 9))
    pinverse := none }

/- ===================== lemmas: bit utilities ===================== -/

theorem bitcount_zero : bitcount 0 = 0 := by
  unfold bitcount; simp

theorem bitcount_ne_zero (x : Nat) (h : x ≠ 0) :
    bitcount x = x % 2 + bitcount (x / 2) := by
  conv_lhs => rw [bitcount]
  simp [h]

theorem bitcount_two_mul (x : Nat) : bitcount (2 * x) = bitcount x := by
  rcases Nat.eq_zero_or_pos x with hx | hx
  · simp [hx]
  · rw [bitcount_ne_zero (2 * x) (by omega)]
    have h1 : 2 * x % 2 = 0 := by omega
    have h2 : 2 * x / 2 = x := by omega
    rw [h1, h2, Nat.zero_add]

theorem bitcount_two_mul_add_one (x : Nat) :
    bitcount (2 * x + 1) = bitcount x + 1 := by
  rw [bitcount_ne_zero (2 * x + 1) (by omega)]
  have h1 : (2 * x + 1) % 2 = 1 := by omega
  have h2 : (2 * x + 1) / 2 = x := by omega
  rw [h1, h2]; omega

theorem bitcount_pow_mul (k m : Nat) : bitcount (2 ^ k * m) = bitcount m := by
  induction k with
  | zero => simp
  | succ k ih =>
    have h : 2 ^ (k + 1) * m = 2 * (2 ^ k * m) := by ring
    rw [h, bitcount_two_mul, ih]

theorem ctz_odd (x : Nat) (h : x % 2 = 1) : ctz x = 0 := by
  unfold ctz
  have hx : x ≠ 0 := by omega
  simp [hx, h]

theorem ctz_even (x : Nat) (hx : x ≠ 0) (h : x % 2 = 0) :
    ctz x = ctz (x / 2) + 1 := by
  conv_lhs => rw [ctz]
  simp [hx, h]

theorem ctz_decomp (x : Nat) (hx : x ≠ 0) :
    ∃ q, x = 2 ^ ctz x * (2 * q + 1) := by
  induction x using Nat.strong_induction_on with
  | _ x ih =>
    rcases Nat.even_or_odd x with he | ho
    · have h2 : x % 2 = 0 := Nat.even_iff.mp he
      have hhalf : x / 2 ≠ 0 := by omega
      obtain ⟨q, hq⟩ := ih (x / 2) (by omega) hhalf
      refine ⟨q, ?_⟩
      rw [ctz_even x hx h2, pow_succ]
      have hsplit : x = 2 * (x / 2) := by omega
      conv_lhs => rw [hsplit, hq]
      ring
    · have h1 : x % 2 = 1 := Nat.odd_iff.mp ho
      refine ⟨x / 2, ?_⟩
      rw [ctz_odd x h1]
      simp; omega

theorem ctz_pow_mul (b q : Nat) : ctz (2 ^ b * (2 * q + 1)) = b := by
  induction b with
  | zero => simpa using ctz_odd (2 * q + 1) (by omega)
  | succ b ih =>
    have hx : 2 ^ (b + 1) * (2 * q + 1) ≠ 0 := by positivity
    have hsplit : 2 ^ (b + 1) * (2 * q + 1) = 2 * (2 ^ b * (2 * q + 1)) := by ring
    have h2 : 2 ^ (b + 1) * (2 * q + 1) % 2 = 0 := by rw [hsplit]; omega
    rw [ctz_even _ hx h2, hsplit]
    have : 2 * (2 ^ b * (2 * q + 1)) / 2 = 2 ^ b * (2 * q + 1) := by omega
    rw [this, ih]

theorem ctz_le_self (x : Nat) : ctz x ≤ x := by
  induction x using Nat.strong_induction_on with
  | _ x ih =>
    rcases Nat.eq_zero_or_pos x with hx | hx
    · subst hx; unfold ctz; simp
    · rcases Nat.even_or_odd x with he | ho
      · have h2 : x % 2 = 0 := Nat.even_iff.mp he
        rw [ctz_even x (by omega) h2]
        have := ih (x / 2) (by omega)
        omega
      · rw [ctz_odd x (Nat.odd_iff.mp ho)]; omega

theorem lsbOf_eq (x : Nat) (hx : x ≠ 0) (hlt : x < 2 ^ 32) :
    lsbOf x = ctz x := by
  unfold lsbOf ffs
  simp only [hx, if_false]
  have h1 : ctz x + 1 + (2 ^ 32 - 1) = ctz x + 2 ^ 32 := by omega
  rw [h1, Nat.add_mod_right]
  exact Nat.mod_eq_of_lt (by have := ctz_le_self x; omega)

theorem MD_CLEAR_decomp (b q : Nat) :
    MD_CLEAR (2 ^ b * (2 * q + 1)) b = 2 ^ (b + 1) * q := by
  unfold MD_CLEAR
  have hpos : 0 < 2 ^ b := Nat.pos_pow_of_pos b (by omega)
  have hdiv : 2 ^ b * (2 * q + 1) / 2 ^ b = 2 * q + 1 :=
    Nat.mul_div_cancel_left _ hpos
  rw [hdiv]
  have hmod : (2 * q + 1) % 2 = 1 := by omega
  rw [if_pos hmod]
  have hexp : 2 ^ b * (2 * q + 1) = 2 ^ (b + 1) * q + 2 ^ b := by ring
  omega

theorem selGo_zero (i : Nat) : selGo 0 i = [] := by
  unfold selGo; simp

theorem selGo_odd (x i : Nat) (h : x % 2 = 1) :
    selGo x i = i :: selGo (x / 2) (i + 1) := by
  have hx : x ≠ 0 := by omega
  conv_lhs => rw [selGo]
  simp [hx, h]

theorem selGo_even (x i : Nat) (hx : x ≠ 0) (h : x % 2 = 0) :
    selGo x i = selGo (x / 2) (i + 1) := by
  conv_lhs => rw [selGo]
  simp [hx, h]

theorem selGo_pow_mul (k : Nat) : ∀ (m i : Nat),
    selGo (2 ^ k * m) i = selGo m (i + k) := by
  induction k with
  | zero => intro m i; simp
  | succ k ih =>
    intro m i
    rcases Nat.eq_zero_or_pos m with hm | hm
    · subst hm; simp [selGo_zero]
    · have hx : 2 ^ (k + 1) * m ≠ 0 := by positivity
      have hsplit : 2 ^ (k + 1) * m = 2 * (2 ^ k * m) := by ring
      have h2 : 2 ^ (k + 1) * m % 2 = 0 := by rw [hsplit]; omega
      rw [selGo_even _ i hx h2, hsplit]
      have hhalf : 2 * (2 ^ k * m) / 2 = 2 ^ k * m := by omega
      rw [hhalf, ih m (i + 1)]
      have : i + 1 + k = i + (k + 1) := by omega
      rw [this]

theorem selectedDims_cons (x : Nat) (hx : x ≠ 0) :
    selectedDims x = ctz x :: selectedDims (MD_CLEAR x (ctz x)) := by
  obtain ⟨q, hq⟩ := ctz_decomp x hx
  set b := ctz x with hb
  unfold selectedDims
  have hclear : MD_CLEAR x b = 2 ^ (b + 1) * q := by
    rw [hq]; exact MD_CLEAR_decomp b q
  rw [hclear, selGo_pow_mul (b + 1) q 0]
  conv_lhs => rw [hq]
  rw [selGo_pow_mul b (2 * q + 1) 0]
  rw [selGo_odd (2 * q + 1) _ (by omega)]
  have hd : (2 * q + 1) / 2 = q := by omega
  rw [hd]
  simp

theorem MD_CLEAR_ctz_lt (x : Nat) (hx : x ≠ 0) : MD_CLEAR x (ctz x) < x := by
  obtain ⟨q, hq⟩ := ctz_decomp x hx
  set b := ctz x with hb
  have hclear : MD_CLEAR x b = 2 ^ (b + 1) * q := by
    rw [hq]; exact MD_CLEAR_decomp b q
  rw [hclear]
  have hexp : 2 ^ (b + 1) * q + 2 ^ b = x := by rw [hq]; ring
  have hpos : 0 < 2 ^ b := Nat.pos_pow_of_pos _ (by omega)
  omega

theorem bitcount_MD_CLEAR_ctz (x : Nat) (hx : x ≠ 0) :
    bitcount x = bitcount (MD_CLEAR x (ctz x)) + 1 := by
  obtain ⟨q, hq⟩ := ctz_decomp x hx
  set b := ctz x with hb
  have hclear : MD_CLEAR x b = 2 ^ (b + 1) * q := by
    rw [hq]; exact MD_CLEAR_decomp b q
  rw [hclear, bitcount_pow_mul]
  conv_lhs => rw [hq]
  rw [bitcount_pow_mul, bitcount_two_mul_add_one]

theorem scanBits_main (x : Nat) (hlt : x < 2 ^ 32) :
    scanBits (bitcount x) x = (selectedDims x, 0, false) := by
  induction x using Nat.strong_induction_on with
  | _ x ih =>
    rcases Nat.eq_zero_or_pos x with hx | hx
    · subst hx
      rw [bitcount_zero]
      unfold selectedDims
      rw [selGo_zero]
      rfl
    · have hx0 : x ≠ 0 := by omega
      have hcnt : bitcount x = bitcount (MD_CLEAR x (ctz x)) + 1 :=
        bitcount_MD_CLEAR_ctz x hx0
      have hlsb : lsbOf x = ctz x := lsbOf_eq x hx0 hlt
      have hltx : MD_CLEAR x (ctz x) < x := MD_CLEAR_ctz_lt x hx0
      have ihx := ih (MD_CLEAR x (ctz x)) hltx (by omega)
      rw [hcnt]
      show (lsbOf x :: (scanBits (bitcount (MD_CLEAR x (ctz x))) (MD_CLEAR x (lsbOf x))).1,
        (scanBits (bitcount (MD_CLEAR x (ctz x))) (MD_CLEAR x (lsbOf x))).2.1,
        decide (x = 0) || (scanBits (bitcount (MD_CLEAR x (ctz x))) (MD_CLEAR x (lsbOf x))).2.2)
        = (selectedDims x, 0, false)
      rw [hlsb, ihx]
      simp [hx0, selectedDims_cons x hx0]

theorem selGo_ge (x : Nat) : ∀ i, ∀ b ∈ selGo x i, i ≤ b := by
  induction x using Nat.strong_induction_on with
  | _ x ih =>
    intro i b hb
    rcases Nat.eq_zero_or_pos x with hx | hx
    · subst hx; rw [selGo_zero] at hb; cases hb
    · rcases Nat.even_or_odd x with he | ho
      · have h2 : x % 2 = 0 := Nat.even_iff.mp he
        rw [selGo_even x i (by omega) h2] at hb
        have := ih (x / 2) (by omega) (i + 1) b hb
        omega
      · have h1 : x % 2 = 1 := Nat.odd_iff.mp ho
        rw [selGo_odd x i h1, List.mem_cons] at hb
        rcases hb with hb | hb
        · omega
        · have := ih (x / 2) (by omega) (i + 1) b hb
          omega

theorem selGo_chain (x : Nat) : ∀ i, List.Chain' (· < ·) (selGo x i) := by
  induction x using Nat.strong_induction_on with
  | _ x ih =>
    intro i
    rcases Nat.eq_zero_or_pos x with hx | hx
    · subst hx; rw [selGo_zero]; exact List.chain'_nil
    · rcases Nat.even_or_odd x with he | ho
      · have h2 : x % 2 = 0 := Nat.even_iff.mp he
        rw [selGo_even x i (by omega) h2]
        exact ih (x / 2) (by omega) (i + 1)
      · have h1 : x % 2 = 1 := Nat.odd_iff.mp ho
        rw [selGo_odd x i h1]
        rw [List.chain'_cons']
        refine ⟨?_, ih (x / 2) (by omega) (i + 1)⟩
        intro y hy
        have hmem : y ∈ selGo (x / 2) (i + 1) := List.mem_of_mem_head? hy
        have := selGo_ge (x / 2) (i + 1) y hmem
        omega

theorem selGo_length (x : Nat) : ∀ i, (selGo x i).length = bitcount x := by
  induction x using Nat.strong_induction_on with
  | _ x ih =>
    intro i
    rcases Nat.eq_zero_or_pos x with hx | hx
    · subst hx; rw [selGo_zero, bitcount_zero]; rfl
    · rcases Nat.even_or_odd x with he | ho
      · have h2 : x % 2 = 0 := Nat.even_iff.mp he
        rw [selGo_even x i (by omega) h2, bitcount_ne_zero x (by omega), h2,
          ih (x / 2) (by omega) (i + 1)]
        omega
      · have h1 : x % 2 = 1 := Nat.odd_iff.mp ho
        rw [selGo_odd x i h1, bitcount_ne_zero x (by omega), h1]
        simp [ih (x / 2) (by omega) (i + 1)]
        omega

theorem selGo_mem (x : Nat) : ∀ i b, b ∈ selGo x i ↔ (i ≤ b ∧ x / 2 ^ (b - i) % 2 = 1) := by
  induction x using Nat.strong_induction_on with
  | _ x ih =>
    intro i b
    rcases Nat.eq_zero_or_pos x with hx | hx
    · subst hx; rw [selGo_zero]; simp
    · have hdiv : i + 1 ≤ b → x / 2 ^ (b - i) = x / 2 / 2 ^ (b - (i + 1)) := by
        intro hib
        rw [Nat.div_div_eq_div_mul]
        have hsplit : 2 ^ (b - i) = 2 * 2 ^ (b - (i + 1)) := by
          have h1 : b - i = (b - (i + 1)) + 1 := by omega
          rw [h1, pow_succ]; ring
        rw [hsplit]
      rcases Nat.even_or_odd x with he | ho
      · have h2 : x % 2 = 0 := Nat.even_iff.mp he
        rw [selGo_even x i (by omega) h2, ih (x / 2) (by omega) (i + 1) b]
        constructor
        · rintro ⟨hib, hbit⟩
          exact ⟨by omega, by rw [hdiv hib]; exact hbit⟩
        · rintro ⟨hib, hbit⟩
          rcases Nat.lt_or_ge b (i + 1) with hlt | hge
          · exfalso
            have hbi : b = i := by omega
            rw [hbi] at hbit
            simp at hbit
            omega
          · exact ⟨hge, by rw [← hdiv hge]; exact hbit⟩
      · have h1 : x % 2 = 1 := Nat.odd_iff.mp ho
        rw [selGo_odd x i h1]
        simp only [List.mem_cons]
        rw [ih (x / 2) (by omega) (i + 1) b]
        constructor
        · rintro (hbi | ⟨hib, hbit⟩)
          · subst hbi; simp; omega
          · exact ⟨by omega, by rw [hdiv hib]; exact hbit⟩
        · rintro ⟨hib, hbit⟩
          rcases Nat.lt_or_ge b (i + 1) with hlt | hge
          · left; omega
          · right
            exact ⟨hge, by rw [← hdiv hge]; exact hbit⟩

theorem selectedDims_sorted (flags : Nat) :
    List.Chain' (· < ·) (selectedDims flags) :=
  selGo_chain flags 0

theorem selectedDims_nodup (flags : Nat) : (selectedDims flags).Nodup := by
  have hp : List.Pairwise (· < ·) (selectedDims flags) :=
    List.chain'_iff_pairwise.mp (selectedDims_sorted flags)
  exact hp.imp Nat.ne_of_lt

theorem selectedDims_length (flags : Nat) :
    (selectedDims flags).length = bitcount flags :=
  selGo_length flags 0

theorem selectedDims_mem (flags b : Nat) :
    b ∈ selectedDims flags ↔ flags / 2 ^ b % 2 = 1 := by
  unfold selectedDims
  rw [selGo_mem flags 0 b]
  simp

theorem foldl_add_map {α β : Type} [AddCommMonoid α] (f : β → α) :
    ∀ (l : List β) (a : α),
      l.foldl (fun acc p => acc + f p) a = a + (l.map f).sum := by
  intro l
  induction l with
  | nil => intro a; simp
  | cons hd tl ih =>
    intro a
    simp only [List.foldl_cons, List.map_cons, List.sum_cons]
    rw [ih (a + f hd), add_assoc]

/- ===================== lemmas: shared payload ring ===================== -/

theorem ringInv_next_ne (s : RingState) (hInv : RingInv s) (d e : Fin 4)
    (hd : d ∈ s.live) (he : e ∈ s.live) (hne : e ≠ d) : s.next d ≠ d := by
  intro hfix
  obtain ⟨k, hk⟩ := hInv.2 d hd e he
  have hkd : s.next^[k] d = d := Function.iterate_fixed hfix k
  exact hne (by rw [← hk, hkd])

theorem ringInv_singleton (s : RingState) (hInv : RingInv s) (d : Fin 4)
    (hd : d ∈ s.live) (hfix : s.next d = d) : ∀ e ∈ s.live, e = d := by
  intro e he
  obtain ⟨k, hk⟩ := hInv.2 d hd e he
  rw [Function.iterate_fixed hfix k] at hk
  exact hk.symm

theorem dropNode_next (s : RingState) (d x : Fin 4) :
    (dropNode d s).next x = if x = s.prev d then s.next d else s.next x := by
  simp [dropNode, shared_unlink, Function.update_apply]

theorem dropNode_prev (s : RingState) (d x : Fin 4) :
    (dropNode d s).prev x = if x = s.next d then s.prev d else s.prev x := by
  simp [dropNode, shared_unlink, Function.update_apply]

theorem dropNode_mem_live (s : RingState) (d x : Fin 4) :
    x ∈ (dropNode d s).live ↔ x ∈ s.live ∧ x ≠ d := by
  simp [dropNode, Finset.mem_erase]
  tauto

theorem ringInv_dropNode (s : RingState) (hInv : RingInv s) (d : Fin 4)
    (hd : d ∈ s.live) (hnd : s.next d ≠ d) : RingInv (dropNode d s) := by
  obtain ⟨hptr, hconn⟩ := hInv
  obtain ⟨hnl, hpl, hpn, hnp⟩ := hptr d hd
  have hpd : s.prev d ≠ d := fun h => hnd ((congrArg s.next h.symm).trans hnp)
  have inj : ∀ x ∈ s.live, ∀ y ∈ s.live, s.next x = s.next y → x = y := by
    intro x hx y hy hxy
    have h1 := (hptr x hx).2.2.1
    have h2 := (hptr y hy).2.2.1
    rw [← h1, ← h2, hxy]
  constructor
  · intro x hx
    rw [dropNode_mem_live] at hx
    obtain ⟨hxl, hxd⟩ := hx
    obtain ⟨hxn1, hxp1, hxpn, hxnp⟩ := hptr x hxl
    refine ⟨?_, ?_, ?_, ?_⟩
    · by_cases hxp : x = s.prev d
      · rw [dropNode_next, if_pos hxp, dropNode_mem_live]
        exact ⟨hnl, hnd⟩
      · rw [dropNode_next, if_neg hxp, dropNode_mem_live]
        refine ⟨hxn1, fun hcontr => hxp ?_⟩
        exact inj x hxl (s.prev d) hpl (hcontr.trans hnp.symm)
    · by_cases hxn : x = s.next d
      · rw [dropNode_prev, if_pos hxn, dropNode_mem_live]
        exact ⟨hpl, hpd⟩
      · rw [dropNode_prev, if_neg hxn, dropNode_mem_live]
        refine ⟨hxp1, fun hcontr => hxn ?_⟩
        rw [hcontr] at hxnp
        exact hxnp.symm
    · by_cases hxp : x = s.prev d
      · rw [dropNode_next, if_pos hxp, dropNode_prev, if_pos rfl]
        exact hxp.symm
      · have hne2 : s.next x ≠ s.next d := fun hcontr => hxd (inj x hxl d hd hcontr)
        rw [dropNode_next, if_neg hxp, dropNode_prev, if_neg hne2]
        exact hxpn
    · by_cases hxn : x = s.next d
      · rw [dropNode_prev, if_pos hxn, dropNode_next, if_pos rfl]
        exact hxn.symm
      · have hne2 : s.prev x ≠ s.prev d := by
          intro hcontr
          rw [hcontr, hnp] at hxnp
          exact hxd hxnp.symm
        rw [dropNode_prev, if_neg hxn, dropNode_next, if_neg hne2]
        exact hxnp
  · have key : ∀ k x e, x ∈ s.live → x ≠ d → e ∈ s.live → e ≠ d →
        s.next^[k] x = e → ∃ j, (dropNode d s).next^[j] x = e := by
      intro k
      induction k using Nat.strong_induction_on with
      | _ k ihk =>
        intro x e hxl hxd hel hed hk
        cases k with
        | zero =>
          exact ⟨0, by simpa using hk⟩
        | succ k1 =>
          rw [Function.iterate_succ_apply] at hk
          by_cases hnx : s.next x = d
          · have hxp : x = s.prev d := inj x hxl (s.prev d) hpl (hnx.trans hnp.symm)
            cases k1 with
            | zero =>
              simp only [Function.iterate_zero_apply] at hk
              rw [hnx] at hk
              exact absurd hk.symm hed
            | succ k2 =>
              rw [Function.iterate_succ_apply] at hk
              rw [hnx] at hk
              obtain ⟨j, hj⟩ := ihk k2 (by omega) (s.next d) e hnl hnd hel hed hk
              refine ⟨j + 1, ?_⟩
              rw [Function.iterate_succ_apply]
              have hstep : (dropNode d s).next x = s.next d := by
                rw [dropNode_next, if_pos hxp]
              rw [hstep, hj]
          · have hxp : x ≠ s.prev d := fun hcontr => hnx (by rw [hcontr, hnp])
            have hnxl : s.next x ∈ s.live := (hptr x hxl).1
            obtain ⟨j, hj⟩ := ihk k1 (by omega) (s.next x) e hnxl hnx hel hed hk
            refine ⟨j + 1, ?_⟩
            rw [Function.iterate_succ_apply]
            have hstep : (dropNode d s).next x = s.next x := by
              rw [dropNode_next, if_neg hxp]
            rw [hstep, hj]
    intro x hx e he
    rw [dropNode_mem_live] at hx he
    obtain ⟨k, hk⟩ := hconn x hx.1 e he.1
    exact key k x e hx.1 hx.2 he.1 he.2 hk

theorem releaseHandle_delta (d : Fin 4) (s : RingState) (h : 1 < s.rc d) :
    releaseHandle d s = { s with rc := Function.update s.rc d (s.rc d - 1) } := by
  unfold releaseHandle
  rw [if_pos h]

theorem releaseHandle_last (d : Fin 4) (s : RingState) (h : ¬ 1 < s.rc d) :
    releaseHandle d s = shared_del d s := by
  unfold releaseHandle
  rw [if_neg h]

theorem runReleases_delCount (ds : List (Fin 4)) : ∀ s : RingState,
    RingInv s → s.delCount = 0 → s.live.Nonempty →
    (∀ d ∈ s.live, 1 ≤ s.rc d) →
    (∀ d : Fin 4, ds.count d = if d ∈ s.live then s.rc d else 0) →
    (runReleases s ds).delCount = 1 ∧
      ∀ pre suf, ds = pre ++ suf → suf ≠ [] →
        (runReleases s pre).delCount = 0 := by
  induction ds with
  | nil =>
    intro s hInv hdel hne hrc hcount
    exfalso
    obtain ⟨d, hd⟩ := hne
    have hc := hcount d
    rw [if_pos hd] at hc
    have h1 := hrc d hd
    simp only [List.count_nil] at hc
    omega
  | cons a ds ih =>
    intro s hInv hdel hne hrc hcount
    have hca := hcount a
    have halive : a ∈ s.live := by
      by_contra hcontr
      rw [if_neg hcontr, List.count_cons_self] at hca
      omega
    rw [if_pos halive, List.count_cons_self] at hca
    have hstep : runReleases s (a :: ds) = runReleases (releaseHandle a s) ds := rfl
    have hprefix0 : (runReleases s []).delCount = 0 := hdel
    by_cases hrc1 : 1 < s.rc a
    · -- more references remain on this node: only the refcount drops
      have hrel := releaseHandle_delta a s hrc1
      have hInv2 : RingInv (releaseHandle a s) := by rw [hrel]; exact hInv
      have hdel2 : (releaseHandle a s).delCount = 0 := by rw [hrel]; exact hdel
      have hne2 : (releaseHandle a s).live.Nonempty := by rw [hrel]; exact hne
      have hrc2 : ∀ d ∈ (releaseHandle a s).live, 1 ≤ (releaseHandle a s).rc d := by
        rw [hrel]
        intro d hd
        show 1 ≤ Function.update s.rc a (s.rc a - 1) d
        rw [Function.update_apply]
        by_cases hda : d = a
        · rw [if_pos hda]; omega
        · rw [if_neg hda]; exact hrc d hd
      have hcount2 : ∀ d : Fin 4, ds.count d =
          if d ∈ (releaseHandle a s).live then (releaseHandle a s).rc d else 0 := by
        rw [hrel]
        intro d
        show ds.count d = if d ∈ s.live then Function.update s.rc a (s.rc a - 1) d else 0
        rw [Function.update_apply]
        by_cases hda : d = a
        · subst hda
          rw [if_pos halive, if_pos rfl]
          omega
        · have hcd := hcount d
          rw [List.count_cons_of_ne hda] at hcd
          rw [if_neg hda]
          exact hcd
      have hmain := ih (releaseHandle a s) hInv2 hdel2 hne2 hrc2 hcount2
      refine ⟨by rw [hstep]; exact hmain.1, ?_⟩
      intro pre suf hsplit hsuf
      cases pre with
      | nil => exact hprefix0
      | cons p pre1 =>
        rw [List.cons_append] at hsplit
        obtain ⟨hp, hrest⟩ := List.cons.inj hsplit
        subst hp
        show (runReleases (releaseHandle a s) pre1).delCount = 0
        exact hmain.2 pre1 suf hrest hsuf
    · -- the last reference on this node: shared_del runs
      have hrca : s.rc a = 1 := by
        have := hrc a halive
        omega
      have hrel := releaseHandle_last a s hrc1
      by_cases hsingl : ∀ e ∈ s.live, e = a
      · -- sole remaining ring member: the deleter fires, nothing is left
        have hfix : s.next a = a := hsingl (s.next a) (hInv.1 a halive).1
        have hsd : shared_del a s =
            { s with delCount := s.delCount + 1, live := s.live.erase a } := by
          unfold shared_del
          rw [if_pos hfix]
        have hds_nil : ds = [] := by
          rw [List.eq_nil_iff_forall_not_mem]
          intro e he
          have hce := hcount e
          by_cases hea : e = a
          · subst hea
            rw [if_pos halive, hrca, List.count_cons_self] at hce
            have hpos : 0 < ds.count e := List.count_pos_iff.mpr he
            omega
          · have helive : e ∉ s.live := fun hcontr => hea (hsingl e hcontr)
            rw [if_neg helive, List.count_cons_of_ne hea] at hce
            exact (List.count_eq_zero.mp hce) he
        subst hds_nil
        refine ⟨?_, ?_⟩
        · show (releaseHandle a s).delCount = 1
          rw [hrel, hsd]
          show s.delCount + 1 = 1
          omega
        · intro pre suf hsplit hsuf
          cases pre with
          | nil => exact hprefix0
          | cons p pre1 =>
            exfalso
            rw [List.cons_append] at hsplit
            obtain ⟨hp, hrest⟩ := List.cons.inj hsplit
            rcases List.append_eq_nil.mp hrest.symm with ⟨h1, h2⟩
            exact hsuf h2
      · -- other ring members remain: splice out, the deleter stays silent
        push_neg at hsingl
        obtain ⟨e, hel, hea⟩ := hsingl
        have hfix : s.next a ≠ a := ringInv_next_ne s hInv a e halive hel hea
        have hsd : shared_del a s = dropNode a s := by
          unfold shared_del
          rw [if_neg hfix]
        have hInv2 : RingInv (releaseHandle a s) := by
          rw [hrel, hsd]
          exact ringInv_dropNode s hInv a halive hfix
        have hdel2 : (releaseHandle a s).delCount = 0 := by rw [hrel, hsd]; exact hdel
        have hne2 : (releaseHandle a s).live.Nonempty := by
          rw [hrel, hsd]
          exact ⟨e, (dropNode_mem_live s a e).mpr ⟨hel, hea⟩⟩
        have hrc2 : ∀ d ∈ (releaseHandle a s).live, 1 ≤ (releaseHandle a s).rc d := by
          rw [hrel, hsd]
          intro d hd
          rw [dropNode_mem_live] at hd
          exact hrc d hd.1
        have hcount2 : ∀ d : Fin 4, ds.count d =
            if d ∈ (releaseHandle a s).live then (releaseHandle a s).rc d else 0 := by
          rw [hrel, hsd]
          intro d
          by_cases hda : d = a
          · subst hda
            have hnotmem : d ∉ (dropNode d s).live := by
              rw [dropNode_mem_live]
              simp
            rw [if_neg hnotmem]
            omega
          · have hcd := hcount d
            rw [List.count_cons_of_ne hda] at hcd
            have hmem : d ∈ (dropNode a s).live ↔ d ∈ s.live := by
              rw [dropNode_mem_live]
              exact ⟨fun h => h.1, fun h => ⟨h, hda⟩⟩
            by_cases hdl : d ∈ s.live
            · rw [if_pos (hmem.mpr hdl)]
              show ds.count d = s.rc d
              rw [if_pos hdl] at hcd
              exact hcd
            · rw [if_neg (fun hcontr => hdl (hmem.mp hcontr))]
              rw [if_neg hdl] at hcd
              exact hcd
        have hmain := ih (releaseHandle a s) hInv2 hdel2 hne2 hrc2 hcount2
        refine ⟨by rw [hstep]; exact hmain.1, ?_⟩
        intro pre suf hsplit hsuf
        cases pre with
        | nil => exact hprefix0
        | cons p pre1 =>
          rw [List.cons_append] at hsplit
          obtain ⟨hp, hrest⟩ := List.cons.inj hsplit
          subst hp
          show (runReleases (releaseHandle a s) pre1).delCount = 0
          exact hmain.2 pre1 suf hrest hsuf

theorem ringInv_initRing (k : Nat) : RingInv (initRing k) := by
  have h1 : ∀ d : Fin 4, d + 1 - 1 = d := by decide
  have h2 : ∀ d : Fin 4, d - 1 + 1 = d := by decide
  constructor
  · intro d hd
    exact ⟨Finset.mem_univ _, Finset.mem_univ _, h1 d, h2 d⟩
  · intro d hd e he
    fin_cases d <;> fin_cases e <;>
      first
        | exact ⟨0, rfl⟩
        | exact ⟨1, rfl⟩
        | exact ⟨2, rfl⟩
        | exact ⟨3, rfl⟩

theorem constructRing_inv (hasNormal hasPinv : Bool) (k : Nat) :
    RingInv (constructRing hasNormal hasPinv k) := by
  have h0 := ringInv_initRing k
  have hn2 : (initRing k).next 2 ≠ 2 := by
    show (2 : Fin 4) + 1 ≠ 2
    decide
  have hn3 : (initRing k).next 3 ≠ 3 := by
    show (3 : Fin 4) + 1 ≠ 3
    decide
  have hm3 : (3 : Fin 4) ∈ (dropNode 2 (initRing k)).live := by
    show (3 : Fin 4) ∈ (Finset.univ : Finset (Fin 4)).erase 2
    decide
  have hn3d : (dropNode 2 (initRing k)).next 3 ≠ 3 := by
    show Function.update (fun i : Fin 4 => i + 1) ((2 : Fin 4) - 1) ((2 : Fin 4) + 1) 3 ≠ 3
    decide
  have h2 : RingInv (dropNode 2 (initRing k)) :=
    ringInv_dropNode (initRing k) h0 2 (Finset.mem_univ 2) hn2
  cases hasNormal <;> cases hasPinv
  · exact ringInv_dropNode (dropNode 2 (initRing k)) h2 3 hm3 hn3d
  · exact h2
  · exact ringInv_dropNode (initRing k) h0 3 (Finset.mem_univ 3) hn3
  · exact h0

theorem constructRing_delCount (hasNormal hasPinv : Bool) (k : Nat) :
    (constructRing hasNormal hasPinv k).delCount = 0 := by
  cases hasNormal <;> cases hasPinv <;> rfl

theorem constructRing_rc (hasNormal hasPinv : Bool) (k : Nat) (d : Fin 4) :
    (constructRing hasNormal hasPinv k).rc d = k + 1 := by
  cases hasNormal <;> cases hasPinv <;> rfl

theorem constructRing_live_nonempty (hasNormal hasPinv : Bool) (k : Nat) :
    (constructRing hasNormal hasPinv k).live.Nonempty := by
  refine ⟨0, ?_⟩
  cases hasNormal <;> cases hasPinv
  · show (0 : Fin 4) ∈ ((Finset.univ : Finset (Fin 4)).erase 2).erase 3
    decide
  · show (0 : Fin 4) ∈ (Finset.univ : Finset (Fin 4)).erase 2
    decide
  · show (0 : Fin 4) ∈ (Finset.univ : Finset (Fin 4)).erase 3
    decide
  · exact Finset.mem_univ 0

/-- C2: for every operator built by linop_create2 with a given state and
deleter — with or without the optional normal and pseudo-inverse
transforms, whose ring nodes are spliced out at construction without
invoking the deleter — with k clones referencing every materialized
handle, and for every order of releasing the handle references (each node
released once per reference held on it), the deleter runs on the state
exactly once, precisely at the release of the last remaining handle:
the deletion count is 1 after the full release sequence and 0 after every
proper prefix of it. -/
theorem c2_deleter_exactly_once_at_last_release
    (hasNormal hasPinv : Bool) (k : Nat) (ds : List (Fin 4))
    (hcount : ∀ d : Fin 4, ds.count d =
      if d ∈ (constructRing hasNormal hasPinv k).live then k + 1 else 0) :
    (runReleases (constructRing hasNormal hasPinv k) ds).delCount = 1 ∧
      ∀ pre suf, ds = pre ++ suf → suf ≠ [] →
        (runReleases (constructRing hasNormal hasPinv k) pre).delCount = 0 := by
  apply runReleases_delCount
  · exact constructRing_inv hasNormal hasPinv k
  · exact constructRing_delCount hasNormal hasPinv k
  · exact constructRing_live_nonempty hasNormal hasPinv k
  · intro d hd
    rw [constructRing_rc]
    omega
  · intro d
    rw [constructRing_rc]
    exact hcount d

/-- Witness for C2 at a concrete instance: no normal and no pseudo-inverse
transform (both spliced out at construction), one clone, and the releases
of the two remaining nodes interleaved. -/
theorem c2_witness :
    (runReleases (constructRing false false 1) [0, 1, 0, 1]).delCount = 1 :=
  (c2_deleter_exactly_once_at_last_release false false 1 [0, 1, 0, 1]
    (by decide)).1

theorem bitcount_one : bitcount 1 = 1 := by
  rw [bitcount_ne_zero 1 (by norm_num)]
  norm_num [bitcount_zero]

theorem bitcount_two : bitcount 2 = 1 := by
  rw [bitcount_ne_zero 2 (by norm_num)]
  norm_num [bitcount_one]

theorem bitcount_five : bitcount 5 = 2 := by
  rw [bitcount_ne_zero 5 (by norm_num)]
  norm_num [bitcount_two]

theorem bitcount_three : bitcount 3 = 2 := by
  rw [bitcount_ne_zero 3 (by norm_num)]
  norm_num [bitcount_one]

theorem selectedDims_five : selectedDims 5 = [0, 2] := by
  unfold selectedDims
  rw [selGo_odd 5 0 (by norm_num)]
  norm_num
  rw [selGo_even 2 1 (by norm_num) (by norm_num)]
  rw [show (2 : Nat) / 2 = 1 from by norm_num]
  rw [selGo_odd 1 2 (by norm_num)]
  rw [show (1 : Nat) / 2 = 0 from by norm_num]
  rw [selGo_zero]

/- ===================== claim theorems: gradient transforms ===================== -/

/-- C6: for every input x of the domain shape and every selection mask (an
unsigned int, hence below 2^32), when the trailing extent of dims equals
the popcount of the mask, the gradient forward transform writes, for the
i-th selected dimension taken in ascending order of dimension index, the
forward finite-difference of x along that dimension into the i-th slice of
the output trailing axis, covering every selected dimension exactly
once. -/
theorem c6_grad_op_slices {α : Type} (fdiff : Nat → α → α) (D : Nat)
    (dims : List Int) (flags : Nat) (x : α)
    (hflags : flags < 2 ^ 32)
    (hdims : dims.getD (D - 1) 0 = (bitcount flags : Int)) :
    grad_op fdiff D dims flags x =
      some ((selectedDims flags).map (fun d => fdiff d x)) := by
  simp only [grad_op]
  rw [scanBits_main flags hflags, hdims]
  simp

/-- Witness for C6: mask 5 selects dimensions 0 and 2; with the
finite-difference primitive instantiated to addition of the dimension
index, the two slices are the primitive applied along dimension 0 and
along dimension 2. -/
theorem c6_witness :
    grad_op (fun d (v : Int) => v + d) 4 [7, 7, 7, 2] 5 3 = some [3, 5] := by
  have h := c6_grad_op_slices (fun d (v : Int) => v + d) 4 [7, 7, 7, 2] 5 3
    (by norm_num) (by norm_num [bitcount_five])
  rw [h, selectedDims_five]
  norm_num

/-- C7: for every input y of the codomain shape, the gradient adjoint
transform returns the elementwise sum, over the selected dimensions i in
ascending order, of the backward finite-difference primitive applied to
the i-th trailing slice of y, starting from a zeroed accumulator. -/
theorem c7_grad_adjoint_sum {α : Type} [AddCommMonoid α]
    (bdiff : Nat → α → α) (D : Nat) (dims : List Int) (flags : Nat)
    (y : Nat → α) (out0 tmp0 : α)
    (hflags : flags < 2 ^ 32)
    (hdims : dims.getD (D - 1) 0 = (bitcount flags : Int)) :
    grad_adjoint bdiff D dims flags y out0 tmp0 =
      some (((selectedDims flags).enum.map (fun p => bdiff p.2 (y p.1))).sum) := by
  simp only [grad_adjoint]
  rw [scanBits_main flags hflags, hdims]
  have h2 := foldl_add_map (fun p : Nat × Nat => bdiff p.2 (y p.1))
    ((selectedDims flags).enum) 0
  simp only [if_neg (fun h : ¬ _ = _ => h rfl)]
  rw [h2, zero_add]

/-- Witness for C7: mask 5 selects dimensions 0 and 2; slice 0 of the
input carries value 0 and slice 1 carries value 1; with the backward
primitive instantiated to addition of the dimension index the accumulated
sum is (0 + 0) + (1 + 2) = 3, regardless of the initial buffer contents
4 and 4. -/
theorem c7_witness :
    grad_adjoint (fun d (v : Int) => v + d) 4 [7, 7, 7, 2] 5
      (fun i => (i : Int)) 4 4 = some 3 := by
  have h := c7_grad_adjoint_sum (fun d (v : Int) => v + d) 4 [7, 7, 7, 2] 5
    (fun i => (i : Int)) 4 4 (by norm_num) (by norm_num [bitcount_five])
  rw [h, selectedDims_five]
  decide

/-- C9: the result of the gradient adjoint transform is independent of the
prior contents of the caller-supplied output buffer and of the freshly
allocated scratch buffer: both are zero-cleared before the accumulation,
so two runs on the same input with different initial buffer contents
produce identical outputs. -/
theorem c9_grad_adjoint_output_independent_of_prior_contents {α : Type}
    [AddCommMonoid α] (bdiff : Nat → α → α) (D : Nat) (dims : List Int)
    (flags : Nat) (y : Nat → α) (out0 tmp0 out1 tmp1 : α) :
    grad_adjoint bdiff D dims flags y out0 tmp0 =
      grad_adjoint bdiff D dims flags y out1 tmp1 := rfl

/-- C10: under the precondition that the trailing extent equals the
popcount of the selection mask (an unsigned int, below 2^32), the
bit-scan-and-clear loop used by both gradient transforms clears exactly
one distinct set bit per iteration, lowest first: the cleared positions
form the strictly increasing, duplicate-free enumeration of the set bits
of the mask, one position per iteration; the lowest-set-bit lookup is
never entered on a zero mask; and the final value of flags2 is zero, so
the closing assertion holds and neither grad_op nor grad_adjoint
faults. -/
theorem c10_bit_scan_loop_safety {α : Type} [AddCommMonoid α]
    (fdiff bdiff : Nat → α → α) (D : Nat) (dims : List Int) (flags : Nat)
    (x : α) (y : Nat → α) (out0 tmp0 : α)
    (hflags : flags < 2 ^ 32)
    (hdims : dims.getD (D - 1) 0 = (bitcount flags : Int)) :
    (scanBits (bitcount flags) flags).1 = selectedDims flags ∧
    (scanBits (bitcount flags) flags).2.1 = 0 ∧
    (scanBits (bitcount flags) flags).2.2 = false ∧
    List.Chain' (· < ·) (selectedDims flags) ∧
    (selectedDims flags).Nodup ∧
    (selectedDims flags).length = bitcount flags ∧
    (∀ b ∈ selectedDims flags, flags / 2 ^ b % 2 = 1) ∧
    grad_op fdiff D dims flags x ≠ none ∧
    grad_adjoint bdiff D dims flags y out0 tmp0 ≠ none := by
  have hs := scanBits_main flags hflags
  refine ⟨by rw [hs], by rw [hs], by rw [hs], selectedDims_sorted flags,
    selectedDims_nodup flags, selectedDims_length flags,
    fun b hb => (selectedDims_mem flags b).mp hb, ?_, ?_⟩
  · simp only [grad_op]
    rw [hs, hdims]
    simp
  · simp only [grad_adjoint]
    rw [hs, hdims]
    simp

/-- Witness for C10 at mask 5: the scan of the two iterations yields the
ascending set-bit list of the mask, and the forward gradient apply does
not fault. -/
theorem c10_witness :
    (scanBits (bitcount 5) 5).1 = selectedDims 5 ∧
    grad_op (fun d (v : Int) => v + d) 4 [7, 7, 7, 2] 5 3 ≠ none := by
  have h := c10_bit_scan_loop_safety (fun d (v : Int) => v + d)
    (fun d (v : Int) => v + d) 4 [7, 7, 7, 2] 5 3 (fun i => (i : Int)) 0 0
    (by norm_num) (by norm_num [bitcount_five])
  exact ⟨h.1, h.2.2.2.2.2.2.2.1⟩

/-- C4: applying the normal transform equals applying forward then
adjoint. Part one: the gradient naive normal runs grad_op and then
grad_adjoint on its slices, for every input and independently of initial
buffer contents. Part two: for a chained operator whose second factor has
no normal handle, the fallback normal handle exists and applies the
chained forward followed by the chained adjoint. Part three: for a chained
operator whose second factor has a normal handle consistent with its own
forward and adjoint, the fused normal handle exists and again equals the
chained forward followed by the chained adjoint. -/
theorem c4_normal_equals_adjoint_of_forward {α V P : Type} [AddCommMonoid α]
    (fdiff bdiff : Nat → α → α) (D : Nat) (dims : List Int) (flags : Nat)
    (x : α) (dst0 scr0 dst1 scr1 : α) (a b : linop_s V P) (v : V) :
    (grad_op_normal fdiff bdiff D dims flags x dst0 scr0 =
      (grad_op fdiff D dims flags x).bind (fun t =>
        grad_adjoint bdiff D dims flags (fun i => t.getD i 0) dst1 scr1)) ∧
    (b.normal = none →
      ∃ cn, (linop_chain a b).normal = some cn ∧
        operator_apply_unchecked cn v =
          linop_adjoint_unchecked (linop_chain a b)
            (linop_forward_unchecked (linop_chain a b) v)) ∧
    (∀ bn, b.normal = some bn →
      (∀ w, operator_apply_unchecked bn w =
        operator_apply_unchecked b.adjoint (operator_apply_unchecked b.forward w)) →
      ∃ cn, (linop_chain a b).normal = some cn ∧
        operator_apply_unchecked cn v =
          linop_adjoint_unchecked (linop_chain a b)
            (linop_forward_unchecked (linop_chain a b) v)) := by
  refine ⟨rfl, ?_, ?_⟩
  · intro h
    refine ⟨operator_chain (operator_chain a.forward b.forward)
      (operator_chain b.adjoint a.adjoint), ?_, rfl⟩
    simp [linop_chain, h]
  · intro bn h hcons
    refine ⟨operator_chain a.forward (operator_chain bn a.adjoint), ?_, ?_⟩
    · simp [linop_chain, h]
    · show a.adjoint.apply (bn.apply (a.forward.apply v)) = _
      rw [show bn.apply (a.forward.apply v) =
        b.adjoint.apply (b.forward.apply (a.forward.apply v)) from
          hcons (a.forward.apply v)]
      rfl

/-- Witness for C4: the gradient part at mask 5, the fallback chain
sampleOpB then sampleOpA (no normal on the second factor), and the fused
chain sampleOpA then sampleOpB (consistent normal on the second
factor). -/
theorem c4_witness :
    (grad_op_normal (fun d (v : Int) => v + d) (fun d (v : Int) => v + d)
        4 [7, 7, 7, 2] 5 3 0 0 =
      (grad_op (fun d (v : Int) => v + d) 4 [7, 7, 7, 2] 5 3).bind (fun t =>
        grad_adjoint (fun d (v : Int) => v + d) 4 [7, 7, 7, 2] 5
          (fun i => t.getD i 0) 1 1)) ∧
    (∃ cn, (linop_chain sampleOpB sampleOpA).normal = some cn ∧
      operator_apply_unchecked cn 7 =
        linop_adjoint_unchecked (linop_chain sampleOpB sampleOpA)
          (linop_forward_unchecked (linop_chain sampleOpB sampleOpA) 7)) ∧
    (∃ cn, (linop_chain sampleOpA sampleOpB).normal = some cn ∧
      operator_apply_unchecked cn 7 =
        linop_adjoint_unchecked (linop_chain sampleOpA sampleOpB)
          (linop_forward_unchecked (linop_chain sampleOpA sampleOpB) 7)) := by
  refine ⟨?_, ?_, ?_⟩
  · exact (c4_normal_equals_adjoint_of_forward (fun d (v : Int) => v + d)
      (fun d (v : Int) => v + d) 4 [7, 7, 7, 2] 5 3 0 0 1 1 sampleOpA sampleOpA
      (7 : Int)).1
  · exact (c4_normal_equals_adjoint_of_forward (fun d (v : Int) => v + d)
      (fun d (v : Int) => v + d) 4 [7, 7, 7, 2] 5 3 0 0 1 1 sampleOpB sampleOpA
      (7 : Int)).2.1 rfl
  · exact (c4_normal_equals_adjoint_of_forward (fun d (v : Int) => v + d)
      (fun d (v : Int) => v + d) 4 [7, 7, 7, 2] 5 3 0 0 1 1 sampleOpA sampleOpB
      (7 : Int)).2.2 (operator_create2 [2] [8] [2] [8] (fun v => v * 9)) rfl
      (fun w => by show w * 9 = w * 3 * 3; ring)

/- ===================== claim theorems: linear operator ===================== -/

/-- C3: for every pair of operators A and B and all inputs x and y, the
chained operator satisfies chain(A,B).forward(x) = B.forward(A.forward(x))
and chain(A,B).adjoint(y) = A.adjoint(B.adjoint(y)). -/
theorem c3_chain_forward_adjoint_composition {V P : Type}
    (a b : linop_s V P) (x y : V) :
    linop_forward_unchecked (linop_chain a b) x =
      operator_apply_unchecked b.forward (operator_apply_unchecked a.forward x) ∧
    linop_adjoint_unchecked (linop_chain a b) y =
      operator_apply_unchecked a.adjoint (operator_apply_unchecked b.adjoint y) :=
  ⟨rfl, rfl⟩

/-- C1 (failing-input demonstration): the checked apply entry points never
validate the caller-declared shapes. A concrete operator with domain dims
[2] and codomain dims [3] is built by linop_create2; calling the checked
forward, adjoint and normal applies with declared shapes [7] and [5] —
each disagreeing with the registered descriptors — still applies the
transforms, because linop_forward, linop_adjoint and linop_normal discard
the declared dims (the UNUSED lines) and are definitionally the unchecked
applies; their return types carry no error channel, so no ShapeMismatch
is ever reported. -/
theorem c1_checked_apply_never_validates :
    ∃ op : linop_s Int Int,
      linop_create2 [3] [8] [2] [8] (some (fun v => v * 2))
        (some (fun v => v * 3)) (some (fun v => v * 6)) none = some op ∧
      (linop_domain op).dims = [2] ∧
      (linop_codomain op).dims = [3] ∧
      ([5] : List Int) ≠ (linop_domain op).dims ∧
      ([7] : List Int) ≠ (linop_codomain op).dims ∧
      linop_forward op 1 [7] [5] 10 = linop_forward_unchecked op 10 ∧
      linop_forward_unchecked op 10 = 20 ∧
      linop_adjoint op 1 [5] [7] 10 = linop_adjoint_unchecked op 10 ∧
      linop_adjoint_unchecked op 10 = 30 ∧
      linop_normal op 1 [5] [5] 10 = linop_normal_unchecked op 10 ∧
      linop_normal_unchecked op 10 = some 60 := by
  refine ⟨_, rfl, rfl, rfl, by decide, by decide, rfl, by decide, rfl,
    by decide, rfl, by decide⟩

/-- C8: applying the normal transform through linop_normal_unchecked when
the operator has no normal handle fails the assert fatally and yields no
result rather than proceeding; applying the pseudo-inverse through
linop_pinverse_unchecked when the operator has no pseudo-inverse handle
also yields no result and never applies a transform — there no in-layer
assert exists and the null handle is passed to the operator layer, which
faults on it. When the handles are present the transforms are applied. -/
theorem c8_absent_normal_and_pinverse_fatal {V P : Type} (op : linop_s V P)
    (lam : P) (src : V) :
    (op.normal = none → linop_normal_unchecked op src = none) ∧
    (∀ nop, op.normal = some nop →
      linop_normal_unchecked op src = some (operator_apply_unchecked nop src)) ∧
    (op.pinverse = none → linop_pinverse_unchecked op lam src = none) ∧
    (∀ pop, op.pinverse = some pop →
      linop_pinverse_unchecked op lam src = some (pop.apply lam src)) := by
  refine ⟨?_, ?_, ?_, ?_⟩
  · intro h
    simp [linop_normal_unchecked, h]
  · intro nop h
    simp [linop_normal_unchecked, h, operator_apply_unchecked]
  · intro h
    simp [linop_pinverse_unchecked, operator_p_apply_unchecked, h]
  · intro pop h
    simp [linop_pinverse_unchecked, operator_p_apply_unchecked, h]

/-- Witness for C8: the sample operator without normal and pseudo-inverse
handles yields no result from either unchecked apply. -/
theorem c8_witness :
    linop_normal_unchecked sampleOpA (5 : Int) = none ∧
    linop_pinverse_unchecked sampleOpA (1 : Int) (5 : Int) = none := by
  have h := c8_absent_normal_and_pinverse_fatal sampleOpA (1 : Int) (5 : Int)
  exact ⟨h.1 rfl, h.2.2.1 rfl⟩

theorem getD_append_length (l : List Int) (a : Int) :
    (l ++ [a]).getD l.length 0 = a := by
  induction l with
  | nil => rfl
  | cons hd tl ih =>
    simp only [List.cons_append, List.length_cons, List.getD_cons_succ]
    exact ih

/-- C5: for every shape S and every selection mask, the gradient
constructor succeeds and yields an operator whose domain dims are S and
whose codomain dims are S with exactly one extra trailing dimension whose
extent is exactly the popcount of the mask — derived by the constructor,
never taken from the caller, whose only inputs are S and the mask — and
applying the forward transform against a codomain whose trailing extent
differs from the popcount is rejected by the assert. -/
theorem c5_grad_init_shapes {V P : Type} (fwd adj nrm : V → V)
    (dims : List Int) (flags : Nat) :
    ∃ lo : linop_s V P,
      grad_init fwd adj nrm dims flags = some lo ∧
      (linop_domain lo).dims = dims ∧
      (linop_codomain lo).dims = dims ++ [(bitcount flags : Int)] ∧
      (linop_codomain lo).dims.length = dims.length + 1 ∧
      (linop_codomain lo).dims.getD dims.length 0 = (bitcount flags : Int) ∧
      (∀ (α : Type) (fdiff : Nat → α → α) (t : Int) (x : α),
        t ≠ (bitcount flags : Int) →
        grad_op fdiff (dims.length + 1) (dims ++ [t]) flags x = none) := by
  refine ⟨_, rfl, rfl, rfl, by simp [linop_codomain, operator_create2],
    getD_append_length dims _, ?_⟩
  intro α fdiff t x ht
  simp only [grad_op]
  have hidx : (dims ++ [t]).getD (dims.length + 1 - 1) 0 = t :=
    getD_append_length dims t
  rw [hidx, if_pos ht]

/-- Witness for C5: shape [4, 4] with mask 3 (both dimensions selected)
gives codomain [4, 4, 2]; a forward apply declared against trailing
extent 7 is rejected. -/
theorem c5_witness :
    (∃ lo : linop_s Int Int, grad_init id id id [4, 4] 3 = some lo ∧
      (linop_domain lo).dims = [4, 4] ∧
      (linop_codomain lo).dims = [4, 4, 2]) ∧
    grad_op (fun (d : Nat) (v : Int) => v) 3 [4, 4, 7] 3 0 = none := by
  obtain ⟨lo, h1, h2, h3, h4, h5, h6⟩ :=
    @c5_grad_init_shapes Int Int id id id [4, 4] 3
  refine ⟨⟨lo, h1, h2, ?_⟩, ?_⟩
  · rw [h3, bitcount_three]
    decide
  · exact h6 Int (fun d v => v) 7 0 (by norm_num [bitcount_three])
